import Mathlib

/-!
# Verification of the Ester streaming OpenAI chat decoder

Shallow embedding of `src/utils/openai.ts` (`streamOpenAIChat` and its inner
generator `streamChunks`).  Byte chunks are `List Nat` (byte values), decoded
text is `List Nat` (Unicode code points), and the decoder state mirrors the
variables `buffer` / `done` of the source together with the internal state of
the `TextDecoder('utf-8')` instance.

Platform primitives used by the source (`TextDecoder`, `String.split`,
`String.startsWith`, `String.replace`, `String.trim`, `JSON.parse`, JavaScript
truthiness) are embedded by executable Lean functions that follow their
standard (WHATWG / ECMAScript / JSON) semantics.
-/

namespace Ester

/-- Code points of a Lean string literal (all literals we use are ASCII). -/
def strLit (s : String) : List Nat := s.data.map Char.toNat

/-! ## Streaming UTF-8 decoder (`TextDecoder('utf-8')` with `stream: true`)

State machine of the WHATWG encoding standard's UTF-8 decoder, in
replacement (non-fatal) mode, processing one byte at a time.  The source never
flushes the decoder at end of stream, and neither does the model. -/

structure Utf8St where
  codePoint : Nat
  bytesNeeded : Nat
  bytesSeen : Nat
  lowerBoundary : Nat
  upperBoundary : Nat
deriving DecidableEq, Repr

def utf8Start : Utf8St := ⟨0, 0, 0, 0x80, 0xBF⟩

/-- Handle a byte in the "no pending sequence" state. -/
def utf8Lead (b : Nat) : Utf8St × List Nat :=
  if b ≤ 0x7F then (utf8Start, [b])
  else if 0xC2 ≤ b ∧ b ≤ 0xDF then
    ({ utf8Start with bytesNeeded := 1, codePoint := b % 32 }, [])
  else if 0xE0 ≤ b ∧ b ≤ 0xEF then
    ({ codePoint := b % 16
       bytesNeeded := 2
       bytesSeen := 0
       lowerBoundary := if b = 0xE0 then 0xA0 else 0x80
       upperBoundary := if b = 0xED then 0x9F else 0xBF }, [])
  else if 0xF0 ≤ b ∧ b ≤ 0xF4 then
    ({ codePoint := b % 8
       bytesNeeded := 3
       bytesSeen := 0
       lowerBoundary := if b = 0xF0 then 0x90 else 0x80
       upperBoundary := if b = 0xF4 then 0x8F else 0xBF }, [])
  else (utf8Start, [0xFFFD])

/-- One byte of the WHATWG UTF-8 decoder: next state and emitted code points.
On a continuation byte outside the expected boundaries the decoder emits a
replacement character and reprocesses the byte as a lead byte. -/
def utf8Step (s : Utf8St) (b : Nat) : Utf8St × List Nat :=
  if s.bytesNeeded = 0 then utf8Lead b
  else if s.lowerBoundary ≤ b ∧ b ≤ s.upperBoundary then
    (if s.bytesSeen + 1 = s.bytesNeeded then (utf8Start, [s.codePoint * 64 + b % 64])
     else ({ s with
             codePoint := s.codePoint * 64 + b % 64
             bytesSeen := s.bytesSeen + 1
             lowerBoundary := 0x80
             upperBoundary := 0xBF }, []))
  else
    ((utf8Lead b).1, 0xFFFD :: (utf8Lead b).2)

/-- Decode a chunk of bytes, threading the decoder state. -/
def utf8Decode : Utf8St → List Nat → Utf8St × List Nat
  | s, [] => (s, [])
  | s, b :: rest =>
    ((utf8Decode (utf8Step s b).1 rest).1,
      (utf8Step s b).2 ++ (utf8Decode (utf8Step s b).1 rest).2)

/-- Text obtained by decoding a whole byte list from the initial state. -/
def utf8Text (bytes : List Nat) : List Nat := (utf8Decode utf8Start bytes).2

/-! ## Line splitting (`buffer.split('\n')`) -/

/-- `String.prototype.split('\n')`: list of segments between newlines; always
nonempty, and `[""]` on the empty string. -/
def splitNl : List Nat → List (List Nat)
  | [] => [[]]
  | c :: rest =>
    if c = 10 then [] :: splitNl rest
    else
      match splitNl rest with
      | [] => [[c]]
      | s :: ss => (c :: s) :: ss

/-- Join segments back with newlines (inverse of `splitNl`). -/
def nlJoin : List (List Nat) → List Nat
  | [] => []
  | [x] => x
  | x :: xs => x ++ 10 :: nlJoin xs

/-- Prepend a carried text buffer onto the first segment of a split. -/
def glueHead (x : List Nat) : List (List Nat) → List (List Nat)
  | [] => [x]
  | s :: ss => (x ++ s) :: ss

/-- The element removed by `lines.pop()` (the last segment). -/
def lastSeg : List (List Nat) → List Nat
  | [] => []
  | [x] => x
  | _ :: x :: xs => lastSeg (x :: xs)

/-- The list remaining after `lines.pop()` (all but the last segment). -/
def dropLastSeg : List (List Nat) → List (List Nat)
  | [] => []
  | [_] => []
  | x :: y :: xs => x :: dropLastSeg (y :: xs)

/-! ## `String.prototype.trim` and `String.prototype.replace` -/

/-- ECMAScript WhiteSpace and LineTerminator code points (`trim` set). -/
def jsWhitespace (c : Nat) : Bool :=
  c = 9 || c = 10 || c = 11 || c = 12 || c = 13 || c = 32 || c = 160 ||
  c = 0x1680 || (0x2000 ≤ c && c ≤ 0x200A) || c = 0x2028 || c = 0x2029 ||
  c = 0x202F || c = 0x205F || c = 0x3000 || c = 0xFEFF

/-- `s.trim()`: strip JS whitespace from both ends. -/
def jsTrim (s : List Nat) : List Nat :=
  ((s.dropWhile jsWhitespace).reverse.dropWhile jsWhitespace).reverse

/-- `s.replace(pat, repl)` with a string pattern: replace the first
occurrence only. -/
def replaceFirst (pat repl : List Nat) : List Nat → List Nat
  | [] => if pat.isPrefixOf ([] : List Nat) then repl else []
  | c :: cs =>
    if pat.isPrefixOf (c :: cs) then repl ++ (c :: cs).drop pat.length
    else c :: replaceFirst pat repl cs

/-! ## JSON values and `JSON.parse`

JSON values as produced by `JSON.parse`; numbers are modelled as rationals
(JSON number literals are exact decimal notations), strings as code-point
lists. -/

inductive Json where
  | null : Json
  | bool (b : Bool) : Json
  | num (q : ℚ) : Json
  | str (s : List Nat) : Json
  | arr (elems : List Json) : Json
  | obj (fields : List (List Nat × Json)) : Json

mutual

def jsonDecEq : (a b : Json) → Decidable (a = b)
  | Json.null, Json.null => isTrue rfl
  | Json.null, Json.bool _ => isFalse (fun h => Json.noConfusion h)
  | Json.null, Json.num _ => isFalse (fun h => Json.noConfusion h)
  | Json.null, Json.str _ => isFalse (fun h => Json.noConfusion h)
  | Json.null, Json.arr _ => isFalse (fun h => Json.noConfusion h)
  | Json.null, Json.obj _ => isFalse (fun h => Json.noConfusion h)
  | Json.bool _, Json.null => isFalse (fun h => Json.noConfusion h)
  | Json.bool x, Json.bool y =>
    if h : x = y then isTrue (by rw [h]) else isFalse (fun hc => h (by injection hc))
  | Json.bool _, Json.num _ => isFalse (fun h => Json.noConfusion h)
  | Json.bool _, Json.str _ => isFalse (fun h => Json.noConfusion h)
  | Json.bool _, Json.arr _ => isFalse (fun h => Json.noConfusion h)
  | Json.bool _, Json.obj _ => isFalse (fun h => Json.noConfusion h)
  | Json.num _, Json.null => isFalse (fun h => Json.noConfusion h)
  | Json.num _, Json.bool _ => isFalse (fun h => Json.noConfusion h)
  | Json.num x, Json.num y =>
    if h : x = y then isTrue (by rw [h]) else isFalse (fun hc => h (by injection hc))
  | Json.num _, Json.str _ => isFalse (fun h => Json.noConfusion h)
  | Json.num _, Json.arr _ => isFalse (fun h => Json.noConfusion h)
  | Json.num _, Json.obj _ => isFalse (fun h => Json.noConfusion h)
  | Json.str _, Json.null => isFalse (fun h => Json.noConfusion h)
  | Json.str _, Json.bool _ => isFalse (fun h => Json.noConfusion h)
  | Json.str _, Json.num _ => isFalse (fun h => Json.noConfusion h)
  | Json.str x, Json.str y =>
    if h : x = y then isTrue (by rw [h]) else isFalse (fun hc => h (by injection hc))
  | Json.str _, Json.arr _ => isFalse (fun h => Json.noConfusion h)
  | Json.str _, Json.obj _ => isFalse (fun h => Json.noConfusion h)
  | Json.arr _, Json.null => isFalse (fun h => Json.noConfusion h)
  | Json.arr _, Json.bool _ => isFalse (fun h => Json.noConfusion h)
  | Json.arr _, Json.num _ => isFalse (fun h => Json.noConfusion h)
  | Json.arr _, Json.str _ => isFalse (fun h => Json.noConfusion h)
  | Json.arr xs, Json.arr ys =>
    match jsonListDecEq xs ys with
    | isTrue h => isTrue (by rw [h])
    | isFalse h => isFalse (fun hc => h (by injection hc))
  | Json.arr _, Json.obj _ => isFalse (fun h => Json.noConfusion h)
  | Json.obj _, Json.null => isFalse (fun h => Json.noConfusion h)
  | Json.obj _, Json.bool _ => isFalse (fun h => Json.noConfusion h)
  | Json.obj _, Json.num _ => isFalse (fun h => Json.noConfusion h)
  | Json.obj _, Json.str _ => isFalse (fun h => Json.noConfusion h)
  | Json.obj _, Json.arr _ => isFalse (fun h => Json.noConfusion h)
  | Json.obj fs, Json.obj gs =>
    match jsonFieldsDecEq fs gs with
    | isTrue h => isTrue (by rw [h])
    | isFalse h => isFalse (fun hc => h (by injection hc))

def jsonListDecEq : (xs ys : List Json) → Decidable (xs = ys)
  | [], [] => isTrue rfl
  | [], _ :: _ => isFalse (fun h => List.noConfusion h)
  | _ :: _, [] => isFalse (fun h => List.noConfusion h)
  | x :: xs, y :: ys =>
    match jsonDecEq x y with
    | isFalse h1 => isFalse (fun hc => h1 (by injection hc))
    | isTrue h1 =>
      match jsonListDecEq xs ys with
      | isTrue h2 => isTrue (by rw [h1, h2])
      | isFalse h2 => isFalse (fun hc => h2 (by injection hc))

def jsonFieldsDecEq : (fs gs : List (List Nat × Json)) → Decidable (fs = gs)
  | [], [] => isTrue rfl
  | [], _ :: _ => isFalse (fun h => List.noConfusion h)
  | _ :: _, [] => isFalse (fun h => List.noConfusion h)
  | (k1, v1) :: fs, (k2, v2) :: gs =>
    if hk : k1 = k2 then
      match jsonDecEq v1 v2 with
      | isFalse h1 =>
        isFalse (fun hc => by
          injection hc with hp hrest
          injection hp with hpk hpv
          exact h1 hpv)
      | isTrue h1 =>
        match jsonFieldsDecEq fs gs with
        | isTrue h2 => isTrue (by rw [hk, h1, h2])
        | isFalse h2 => isFalse (fun hc => h2 (by injection hc))
    else
      isFalse (fun hc => by
        injection hc with hp hrest
        injection hp with hpk hpv
        exact hk hpk)

end

instance : DecidableEq Json := jsonDecEq

/-- Object member lookup; with duplicate keys the last one wins, as in
`JSON.parse`. -/
def jsonLookup (fs : List (List Nat × Json)) (k : List Nat) : Option Json :=
  match fs with
  | [] => none
  | (k', v) :: rest =>
    match jsonLookup rest k with
    | some r => some r
    | none => if k' = k then some v else none

/-- JavaScript property access `v.k` (`undefined` is `none`); only objects
carry properties relevant here, and accessing a property of `null` throws,
which the source's `catch` turns into the same silent skip as `undefined`. -/
def jsGetField (v : Json) (k : List Nat) : Option Json :=
  match v with
  | Json.obj fs => jsonLookup fs k
  | _ => none

/-- JavaScript truthiness of a value produced by `JSON.parse`. -/
def jsTruthy : Json → Bool
  | Json.null => false
  | Json.bool b => b
  | Json.num q => decide (q ≠ 0)
  | Json.str s => !s.isEmpty
  | Json.arr _ => true
  | Json.obj _ => true

/-- JSON whitespace. -/
def jsonWs (c : Nat) : Bool := c == 32 || c == 9 || c == 10 || c == 13

def skipWs (s : List Nat) : List Nat := s.dropWhile jsonWs

def hexDigit (c : Nat) : Option Nat :=
  if 48 ≤ c ∧ c ≤ 57 then some (c - 48)
  else if 65 ≤ c ∧ c ≤ 70 then some (c - 55)
  else if 97 ≤ c ∧ c ≤ 102 then some (c - 87)
  else none

/-- Short escape sequences of JSON strings. -/
def escChar (e : Nat) : Option Nat :=
  if e = 34 then some 34
  else if e = 92 then some 92
  else if e = 47 then some 47
  else if e = 98 then some 8
  else if e = 102 then some 12
  else if e = 110 then some 10
  else if e = 114 then some 13
  else if e = 116 then some 9
  else none

/-- Parse the body of a JSON string after the opening quote; returns the
decoded code units and the remaining input after the closing quote. -/
def parseStrChars : Nat → List Nat → Option (List Nat × List Nat)
  | 0, _ => none
  | _, [] => none
  | f + 1, c :: r =>
    if c = 34 then some ([], r)
    else if c = 92 then
      match r with
      | 117 :: h1 :: h2 :: h3 :: h4 :: r2 =>
        match hexDigit h1, hexDigit h2, hexDigit h3, hexDigit h4 with
        | some a, some b, some c2, some d =>
          (parseStrChars f r2).map fun p => ((((a * 16 + b) * 16 + c2) * 16 + d) :: p.1, p.2)
        | _, _, _, _ => none
      | e :: r2 =>
        match escChar e with
        | some ec => (parseStrChars f r2).map fun p => (ec :: p.1, p.2)
        | none => none
      | [] => none
    else if c < 32 then none
    else (parseStrChars f r).map fun p => (c :: p.1, p.2)

/-- Greedily read decimal digits: value, digit count, rest. -/
def takeDigits : List Nat → Nat → Nat → Nat × Nat × List Nat
  | [], acc, n => (acc, n, [])
  | c :: r, acc, n =>
    if 48 ≤ c ∧ c ≤ 57 then takeDigits r (acc * 10 + (c - 48)) (n + 1)
    else (acc, n, c :: r)

/-- At least one decimal digit. -/
def parseDigits (s : List Nat) : Option (Nat × Nat × List Nat) :=
  let t := takeDigits s 0 0
  if t.2.1 = 0 then none else some t

/-- JSON number after an optional leading minus: `int frac? exp?` where the
integer part is `0` or starts with a nonzero digit. -/
def parseNumCore (s : List Nat) : Option (ℚ × List Nat) :=
  let ipart : Option (Nat × List Nat) :=
    match s with
    | 48 :: r => some (0, r)
    | _ => (parseDigits s).map fun t => (t.1, t.2.2)
  match ipart with
  | none => none
  | some (ip, r1) =>
    let fpart : Option (Nat × Nat × List Nat) :=
      match r1 with
      | 46 :: r2 => parseDigits r2
      | _ => some (0, 0, r1)
    match fpart with
    | none => none
    | some (fv, fc, r3) =>
      let epart : Option (Int × List Nat) :=
        match r3 with
        | 101 :: 45 :: r4 => (parseDigits r4).map fun t => (-(t.1 : Int), t.2.2)
        | 101 :: 43 :: r4 => (parseDigits r4).map fun t => ((t.1 : Int), t.2.2)
        | 101 :: r4 => (parseDigits r4).map fun t => ((t.1 : Int), t.2.2)
        | 69 :: 45 :: r4 => (parseDigits r4).map fun t => (-(t.1 : Int), t.2.2)
        | 69 :: 43 :: r4 => (parseDigits r4).map fun t => ((t.1 : Int), t.2.2)
        | 69 :: r4 => (parseDigits r4).map fun t => ((t.1 : Int), t.2.2)
        | _ => some (0, r3)
      match epart with
      | none => none
      | some (ev, r5) =>
        some ((((ip : ℚ) + (fv : ℚ) / ((10 : ℚ) ^ fc)) * (10 : ℚ) ^ ev), r5)

/-- JSON number with optional sign. -/
def parseNumber (s : List Nat) : Option (ℚ × List Nat) :=
  match s with
  | 45 :: r => (parseNumCore r).map fun p => (-p.1, p.2)
  | _ => parseNumCore s

mutual

/-- Parse one JSON value (fuelled; `jsonParse` supplies ample fuel). -/
def parseVal : Nat → List Nat → Option (Json × List Nat)
  | 0, _ => none
  | f + 1, s =>
    match skipWs s with
    | [] => none
    | c :: r =>
      if c = 123 then
        match skipWs r with
        | 125 :: r2 => some (Json.obj [], r2)
        | s2 => parseFields f s2 []
      else if c = 91 then
        match skipWs r with
        | 93 :: r2 => some (Json.arr [], r2)
        | s2 => parseElems f s2 []
      else if c = 34 then
        (parseStrChars (r.length + 1) r).map fun p => (Json.str p.1, p.2)
      else if c = 110 then
        match r with
        | 117 :: 108 :: 108 :: r2 => some (Json.null, r2)
        | _ => none
      else if c = 116 then
        match r with
        | 114 :: 117 :: 101 :: r2 => some (Json.bool true, r2)
        | _ => none
      else if c = 102 then
        match r with
        | 97 :: 108 :: 115 :: 101 :: r2 => some (Json.bool false, r2)
        | _ => none
      else
        (parseNumber (c :: r)).map fun p => (Json.num p.1, p.2)

/-- Parse the elements of a nonempty JSON array. -/
def parseElems : Nat → List Nat → List Json → Option (Json × List Nat)
  | 0, _, _ => none
  | f + 1, s, acc =>
    match parseVal f s with
    | none => none
    | some (v, r) =>
      match skipWs r with
      | 44 :: r2 => parseElems f r2 (acc ++ [v])
      | 93 :: r2 => some (Json.arr (acc ++ [v]), r2)
      | _ => none

/-- Parse the members of a nonempty JSON object. -/
def parseFields : Nat → List Nat → List (List Nat × Json) → Option (Json × List Nat)
  | 0, _, _ => none
  | f + 1, s, acc =>
    match skipWs s with
    | 34 :: r =>
      match parseStrChars (r.length + 1) r with
      | none => none
      | some (k, r2) =>
        match skipWs r2 with
        | 58 :: r3 =>
          match parseVal f r3 with
          | none => none
          | some (v, r4) =>
            match skipWs r4 with
            | 44 :: r5 => parseFields f r5 (acc ++ [(k, v)])
            | 125 :: r5 => some (Json.obj (acc ++ [(k, v)]), r5)
            | _ => none
        | _ => none
    | _ => none

end

/-- `JSON.parse`: the whole input (up to surrounding whitespace) must be one
JSON value. -/
def jsonParse (s : List Nat) : Option Json :=
  match parseVal (2 * s.length + 2) s with
  | some (v, r) => if skipWs r = [] then some v else none
  | none => none

/-! ## Line processing (the body of the `for` loop in `streamChunks`) -/

def dataMarker : List Nat := strLit "data: "

def doneLit : List Nat := strLit "[DONE]"

def deltaTypeLit : List Nat := strLit "response.output_text.delta"

def typeKey : List Nat := strLit "type"

def deltaKey : List Nat := strLit "delta"

/-- `line.replace('data: ', '').trim()` — the payload of a candidate line. -/
def payloadOf (line : List Nat) : List Nat :=
  jsTrim (replaceFirst dataMarker [] line)

/-- Effect of one candidate line on the generator: return, yield, or nothing.
`stop` is the `return` on `[DONE]`; `skip` covers non-`data: ` lines, JSON
parse failures (the empty `catch`), and events filtered out by the
`parsed.type === "response.output_text.delta" && parsed.delta` test. -/
inductive LineStep where
  | stop : LineStep
  | yield (j : Json) : LineStep
  | skip : LineStep
deriving DecidableEq

def lineStep (line : List Nat) : LineStep :=
  if dataMarker.isPrefixOf line then
    if payloadOf line = doneLit then LineStep.stop
    else
      match jsonParse (payloadOf line) with
      | none => LineStep.skip
      | some parsed =>
        match jsGetField parsed typeKey with
        | some (Json.str t) =>
          if t = deltaTypeLit then
            match jsGetField parsed deltaKey with
            | some d => if jsTruthy d then LineStep.yield d else LineStep.skip
            | none => LineStep.skip
          else LineStep.skip
        | _ => LineStep.skip
  else LineStep.skip

/-- The value a candidate line contributes to the output sequence, if any. -/
def lineYieldOf (line : List Nat) : Option Json :=
  match lineStep line with
  | LineStep.yield j => some j
  | _ => none

/-- Run the `for (const line of lines)` loop: values yielded, and whether the
generator returned (saw `[DONE]`) inside the loop. -/
def processLines : List (List Nat) → List Json × Bool
  | [] => ([], false)
  | l :: ls =>
    match lineStep l with
    | LineStep.stop => ([], true)
    | LineStep.yield j => ((processLines ls).1.cons j, (processLines ls).2)
    | LineStep.skip => processLines ls

/-! ## The chunk loop of `streamChunks` -/

/-- State of one `streamOpenAIChat` stream between chunk reads: the
`TextDecoder` state, the `buffer` variable, the values yielded so far, and
whether the generator has returned.  `decoded` is a ghost field recording all
text the decoder has produced, used to state the buffer invariant. -/
structure DecoderSt where
  u8 : Utf8St
  buffer : List Nat
  output : List Json
  finished : Bool
  decoded : List Nat

def startSt : DecoderSt :=
  { u8 := utf8Start
    buffer := []
    output := []
    finished := false
    decoded := [] }

/-- One iteration of the `while (!done)` loop on a chunk of bytes
(lines 102–119 of the source): decode the bytes, split the buffer on
newlines, keep the final segment as the new buffer (`lines.pop()`), and run
the line loop on the rest.  A finished generator reads no further chunks. -/
def processChunk (s : DecoderSt) (bytes : List Nat) : DecoderSt :=
  if s.finished then s
  else
    { u8 := (utf8Decode s.u8 bytes).1
      buffer := lastSeg (splitNl (s.buffer ++ (utf8Decode s.u8 bytes).2))
      output := s.output ++ (processLines (dropLastSeg (splitNl (s.buffer ++ (utf8Decode s.u8 bytes).2)))).1
      finished := (processLines (dropLastSeg (splitNl (s.buffer ++ (utf8Decode s.u8 bytes).2)))).2
      decoded := s.decoded ++ (utf8Decode s.u8 bytes).2 }

def processChunks (s : DecoderSt) (css : List (List Nat)) : DecoderSt :=
  css.foldl processChunk s

/-! ## The transport: successful chunk reads, graceful end, or a read failure -/

/-- One result of `reader.read()`: a chunk of bytes, or a rejected promise.
A list of events followed by its end models the chunk sequence followed by
`done: true`. -/
inductive ReadEv where
  | chunk (bytes : List Nat) : ReadEv
  | fail : ReadEv

/-- Drive the generator over a sequence of read results.  Returns the values
yielded and whether the error of a failed read escaped to the consumer.  A
generator that already returned (saw `[DONE]`) performs no further reads. -/
def runReads : DecoderSt → List ReadEv → List Json × Bool
  | s, [] => (s.output, false)
  | s, ReadEv.fail :: _ => if s.finished then (s.output, false) else (s.output, true)
  | s, ReadEv.chunk c :: rest =>
    if s.finished then (s.output, false) else runReads (processChunk s c) rest

/-! ## API-key resolution (lines 52–53 of the source) -/

/-- JavaScript `a || b` on string-or-undefined values: an absent or empty
string is falsy. -/
def jsOrStr (a b : Option (List Nat)) : Option (List Nat) :=
  match a with
  | some k => if k = [] then b else some k
  | none => b

/-- `const OPENAI_API_KEY = user?.openaiApiKey || ENV_OPENAI_API_KEY;` then
`if (!OPENAI_API_KEY) throw new Error('Missing OpenAI API key. ...')`. -/
def streamOpenAIChat_auth (userKey envKey : Option (List Nat)) : Except Unit (List Nat) :=
  match jsOrStr userKey envKey with
  | some k => if k = [] then Except.error () else Except.ok k
  | none => Except.error ()

/-- `streamOpenAIChat` at the granularity relevant here: resolve the key
first; only with a key does any request happen and a stream get consumed. -/
def streamOpenAIChat_model (userKey envKey : Option (List Nat)) (evs : List ReadEv) :
    Except Unit (List Json × Bool) :=
  match streamOpenAIChat_auth userKey envKey with
  | Except.error e => Except.error e
  | Except.ok _ => Except.ok (runReads startSt evs)

/-! ## Basic lemmas about the embedded primitives -/

theorem utf8Decode_append (s : Utf8St) (a b : List Nat) :
    utf8Decode s (a ++ b) =
      ((utf8Decode (utf8Decode s a).1 b).1,
        (utf8Decode s a).2 ++ (utf8Decode (utf8Decode s a).1 b).2) := by
  induction a generalizing s with
  | nil => simp [utf8Decode]
  | cons x xs ih => simp [utf8Decode, ih, List.append_assoc]

theorem splitNl_ne_nil (u : List Nat) : splitNl u ≠ [] := by
  cases u with
  | nil => simp [splitNl]
  | cons c rest =>
    simp only [splitNl]
    split
    · simp
    · split <;> simp

theorem splitNl_no_nl (u : List Nat) (h : (10 : Nat) ∉ u) : splitNl u = [u] := by
  induction u with
  | nil => rfl
  | cons c rest ih =>
    have hc : c ≠ 10 := fun hc => h (hc ▸ List.mem_cons_self c rest)
    have hr : (10 : Nat) ∉ rest := fun hr => h (List.mem_cons_of_mem c hr)
    simp only [splitNl, if_neg hc, ih hr]

theorem lastSeg_cons_cons (x y : List Nat) (xs : List (List Nat)) :
    lastSeg (x :: y :: xs) = lastSeg (y :: xs) := rfl

theorem dropLastSeg_cons_cons (x y : List Nat) (xs : List (List Nat)) :
    dropLastSeg (x :: y :: xs) = x :: dropLastSeg (y :: xs) := rfl

theorem lastSeg_append (xs ys : List (List Nat)) (h : ys ≠ []) :
    lastSeg (xs ++ ys) = lastSeg ys := by
  induction xs with
  | nil => rfl
  | cons x xs ih =>
    obtain ⟨y, ys2, hy⟩ := List.exists_cons_of_ne_nil h
    cases xs with
    | nil => simp [hy, lastSeg_cons_cons]
    | cons x2 xs2 => simpa [lastSeg_cons_cons] using ih

theorem dropLastSeg_append (xs ys : List (List Nat)) (h : ys ≠ []) :
    dropLastSeg (xs ++ ys) = xs ++ dropLastSeg ys := by
  induction xs with
  | nil => rfl
  | cons x xs ih =>
    obtain ⟨y, ys2, hy⟩ := List.exists_cons_of_ne_nil h
    cases xs with
    | nil => simp [hy, dropLastSeg_cons_cons]
    | cons x2 xs2 => simpa [dropLastSeg_cons_cons] using ih

theorem dropLastSeg_append_lastSeg (xs : List (List Nat)) (h : xs ≠ []) :
    dropLastSeg xs ++ [lastSeg xs] = xs := by
  induction xs with
  | nil => exact absurd rfl h
  | cons x xs ih =>
    cases xs with
    | nil => rfl
    | cons y ys =>
      simp only [dropLastSeg_cons_cons, lastSeg_cons_cons, List.cons_append]
      rw [ih (List.cons_ne_nil y ys)]

/-- Splitting a concatenation: the left part's last (incomplete) segment glues
onto the first segment of the right part's split. -/
theorem splitNl_append (a b : List Nat) :
    splitNl (a ++ b) =
      dropLastSeg (splitNl a) ++ glueHead (lastSeg (splitNl a)) (splitNl b) := by
  induction a with
  | nil =>
    obtain ⟨s, ss, hb⟩ := List.exists_cons_of_ne_nil (splitNl_ne_nil b)
    simp [splitNl, hb, glueHead, lastSeg, dropLastSeg]
  | cons c rest ih =>
    obtain ⟨s, ss, hr⟩ := List.exists_cons_of_ne_nil (splitNl_ne_nil rest)
    by_cases hc : c = 10
    · subst hc
      show splitNl (10 :: (rest ++ b)) = _
      rw [show splitNl (10 :: (rest ++ b)) = [] :: splitNl (rest ++ b) from rfl, ih,
        show splitNl (10 :: rest) = [] :: splitNl rest from rfl, hr]
      simp [dropLastSeg_cons_cons, lastSeg_cons_cons]
    · show splitNl (c :: (rest ++ b)) = _
      rw [show splitNl (c :: (rest ++ b)) =
            (match splitNl (rest ++ b) with
             | [] => [[c]]
             | s :: ss => (c :: s) :: ss) from by simp [splitNl, hc],
        ih, hr,
        show splitNl (c :: rest) =
            (match splitNl rest with
             | [] => [[c]]
             | s :: ss => (c :: s) :: ss) from by simp [splitNl, hc],
        hr]
      cases ss with
      | nil =>
        obtain ⟨sb, ssb, hb⟩ := List.exists_cons_of_ne_nil (splitNl_ne_nil b)
        simp [hb, glueHead, lastSeg, dropLastSeg]
      | cons s2 ss2 =>
        simp [glueHead, lastSeg_cons_cons, dropLastSeg_cons_cons]

/-- The final segment of a split never contains a newline. -/
theorem lastSeg_splitNl_no_nl (u : List Nat) : (10 : Nat) ∉ lastSeg (splitNl u) := by
  induction u with
  | nil => simp [splitNl, lastSeg]
  | cons c rest ih =>
    obtain ⟨s, ss, hr⟩ := List.exists_cons_of_ne_nil (splitNl_ne_nil rest)
    by_cases hc : c = 10
    · subst hc
      rw [show splitNl (10 :: rest) = [] :: splitNl rest from rfl, hr]
      rw [hr] at ih
      simpa [lastSeg_cons_cons] using ih
    · rw [show splitNl (c :: rest) =
            (match splitNl rest with
             | [] => [[c]]
             | s :: ss => (c :: s) :: ss) from by simp [splitNl, hc],
        hr]
      rw [hr] at ih
      cases ss with
      | nil =>
        simp only [lastSeg] at ih ⊢
        simp [hc, ih, List.mem_cons]
        intro h10
        exact hc h10.symm
      | cons s2 ss2 =>
        simpa [lastSeg_cons_cons] using ih

/-- Splitting is a section of joining with newlines. -/
theorem nlJoin_splitNl (u : List Nat) : nlJoin (splitNl u) = u := by
  induction u with
  | nil => rfl
  | cons c rest ih =>
    obtain ⟨s, ss, hr⟩ := List.exists_cons_of_ne_nil (splitNl_ne_nil rest)
    rw [hr] at ih
    by_cases hc : c = 10
    · subst hc
      rw [show splitNl (10 :: rest) = [] :: splitNl rest from rfl, hr]
      cases ss with
      | nil => simpa [nlJoin] using ih
      | cons s2 ss2 => simpa [nlJoin] using ih
    · rw [show splitNl (c :: rest) =
            (match splitNl rest with
             | [] => [[c]]
             | s :: ss => (c :: s) :: ss) from by simp [splitNl, hc],
        hr]
      cases ss with
      | nil => simpa [nlJoin] using ih
      | cons s2 ss2 => simp only [nlJoin] at ih ⊢; simp [ih]

/-! ## Lemmas about the line loop -/

theorem processLines_cons_stop (l : List Nat) (ls : List (List Nat))
    (h : lineStep l = LineStep.stop) : processLines (l :: ls) = ([], true) := by
  simp [processLines, h]

theorem processLines_cons_yield (l : List Nat) (ls : List (List Nat)) (j : Json)
    (h : lineStep l = LineStep.yield j) :
    processLines (l :: ls) = (j :: (processLines ls).1, (processLines ls).2) := by
  simp [processLines, h]

theorem processLines_cons_skip (l : List Nat) (ls : List (List Nat))
    (h : lineStep l = LineStep.skip) : processLines (l :: ls) = processLines ls := by
  simp [processLines, h]

theorem processLines_append_no_stop (u v : List (List Nat)) (h : (processLines u).2 = false) :
    processLines (u ++ v) =
      ((processLines u).1 ++ (processLines v).1, (processLines v).2) := by
  induction u with
  | nil => simp [processLines]
  | cons l ls ih =>
    cases hl : lineStep l with
    | stop => rw [processLines_cons_stop l ls hl] at h; simp at h
    | yield j =>
      rw [processLines_cons_yield l ls j hl] at h
      rw [List.cons_append, processLines_cons_yield l _ j hl,
        processLines_cons_yield l ls j hl, ih h]
      simp
    | skip =>
      rw [processLines_cons_skip l ls hl] at h
      rw [List.cons_append, processLines_cons_skip l _ hl,
        processLines_cons_skip l ls hl, ih h]

theorem processLines_append_stop (u v : List (List Nat)) (h : (processLines u).2 = true) :
    processLines (u ++ v) = processLines u := by
  induction u with
  | nil => simp [processLines] at h
  | cons l ls ih =>
    cases hl : lineStep l with
    | stop =>
      rw [List.cons_append, processLines_cons_stop l _ hl, processLines_cons_stop l ls hl]
    | yield j =>
      rw [processLines_cons_yield l ls j hl] at h
      rw [List.cons_append, processLines_cons_yield l _ j hl,
        processLines_cons_yield l ls j hl, ih h]
    | skip =>
      rw [processLines_cons_skip l ls hl] at h
      rw [List.cons_append, processLines_cons_skip l _ hl,
        processLines_cons_skip l ls hl, ih h]

/-- With no sentinel among the lines, the loop yields every delta and the
generator does not return. -/
theorem processLines_no_stop (ls : List (List Nat)) (h : ∀ l ∈ ls, lineStep l ≠ LineStep.stop) :
    processLines ls = (ls.filterMap lineYieldOf, false) := by
  induction ls with
  | nil => rfl
  | cons l ls ih =>
    have hl : lineStep l ≠ LineStep.stop := h l (List.mem_cons_self l ls)
    have hrest : ∀ x ∈ ls, lineStep x ≠ LineStep.stop :=
      fun x hx => h x (List.mem_cons_of_mem l hx)
    cases hs : lineStep l with
    | stop => exact absurd hs hl
    | yield j =>
      rw [processLines_cons_yield l ls j hs, ih hrest]
      simp [List.filterMap_cons, lineYieldOf, hs]
    | skip =>
      rw [processLines_cons_skip l ls hs, ih hrest]
      simp [List.filterMap_cons, lineYieldOf, hs]

/-- Lines before the first sentinel yield their deltas; the sentinel returns
from the generator and everything after it is dead. -/
theorem processLines_until_stop (pre post : List (List Nat)) (dl : List Nat)
    (hpre : ∀ l ∈ pre, lineStep l ≠ LineStep.stop) (hdl : lineStep dl = LineStep.stop) :
    processLines (pre ++ dl :: post) = (pre.filterMap lineYieldOf, true) := by
  induction pre with
  | nil => simp [processLines, hdl]
  | cons l ls ih =>
    have hl : lineStep l ≠ LineStep.stop := hpre l (List.mem_cons_self l ls)
    have hrest : ∀ x ∈ ls, lineStep x ≠ LineStep.stop :=
      fun x hx => hpre x (List.mem_cons_of_mem l hx)
    cases hs : lineStep l with
    | stop => exact absurd hs hl
    | yield j =>
      rw [List.cons_append, processLines_cons_yield l _ j hs, ih hrest]
      simp [List.filterMap_cons, lineYieldOf, hs]
    | skip =>
      rw [List.cons_append, processLines_cons_skip l _ hs, ih hrest]
      simp [List.filterMap_cons, lineYieldOf, hs]

/-! ## Lemmas about the chunk loop -/

theorem processChunk_finished (s : DecoderSt) (c : List Nat) (h : s.finished = true) :
    processChunk s c = s := by
  simp [processChunk, h]

theorem processChunks_nil (s : DecoderSt) : processChunks s [] = s := rfl

theorem processChunks_cons (s : DecoderSt) (c : List Nat) (css : List (List Nat)) :
    processChunks s (c :: css) = processChunks (processChunk s c) css := rfl

theorem processChunks_finished (s : DecoderSt) (css : List (List Nat))
    (h : s.finished = true) : processChunks s css = s := by
  induction css with
  | nil => rfl
  | cons c cs ih => rw [processChunks_cons, processChunk_finished s c h, ih]

/-- A finished state never yields again and its buffer is untouched: once the
generator returned, the stream state stays observably identical. -/
def stEquiv (s t : DecoderSt) : Prop :=
  s.output = t.output ∧ s.finished = t.finished ∧ (s.finished = false → s = t)

theorem stEquiv_refl (s : DecoderSt) : stEquiv s s := ⟨rfl, rfl, fun _ => rfl⟩

theorem stEquiv_symm {s t : DecoderSt} (h : stEquiv s t) : stEquiv t s :=
  ⟨h.1.symm, h.2.1.symm,
    fun hf => (h.2.2 (h.2.1.trans hf)).symm⟩

theorem stEquiv_trans {s t u : DecoderSt} (h1 : stEquiv s t) (h2 : stEquiv t u) :
    stEquiv s u :=
  ⟨h1.1.trans h2.1, h1.2.1.trans h2.2.1,
    fun hf => (h1.2.2 hf).trans (h2.2.2 (h1.2.1 ▸ hf))⟩

theorem processChunk_buffer_no_nl (s : DecoderSt) (c : List Nat)
    (h : (10 : Nat) ∉ s.buffer) : (10 : Nat) ∉ (processChunk s c).buffer := by
  by_cases hf : s.finished
  · rw [processChunk_finished s c hf]; exact h
  · simp only [processChunk, if_neg hf]
    exact lastSeg_splitNl_no_nl _

/-- Processing the empty chunk from a live state with a newline-free buffer
is a no-op (matches `if (value)` skipping absent values). -/
theorem processChunk_nil_of_no_nl (s : DecoderSt) (hf : s.finished = false)
    (hb : (10 : Nat) ∉ s.buffer) : processChunk s [] = s := by
  obtain ⟨u8, buffer, output, finished, decoded⟩ := s
  simp only at hf hb
  subst hf
  simp [processChunk, utf8Decode, splitNl_no_nl _ hb, lastSeg, dropLastSeg, processLines]

theorem splitNl_append_no_nl (x t : List Nat) (h : (10 : Nat) ∉ x) :
    splitNl (x ++ t) = glueHead x (splitNl t) := by
  rw [splitNl_append, splitNl_no_nl x h]
  simp [dropLastSeg, lastSeg]

/-- Explicit form of one live loop iteration. -/
theorem processChunk_eq (s : DecoderSt) (bytes : List Nat) (hf : s.finished = false) :
    processChunk s bytes =
      { u8 := (utf8Decode s.u8 bytes).1
        buffer := lastSeg (splitNl (s.buffer ++ (utf8Decode s.u8 bytes).2))
        output := s.output ++ (processLines (dropLastSeg (splitNl (s.buffer ++ (utf8Decode s.u8 bytes).2)))).1
        finished := (processLines (dropLastSeg (splitNl (s.buffer ++ (utf8Decode s.u8 bytes).2)))).2
        decoded := s.decoded ++ (utf8Decode s.u8 bytes).2 } := by
  simp [processChunk, hf]

/-- Feeding a concatenation of two byte chunks in one go is observably the
same as feeding them one after the other. -/
theorem processChunk_append_equiv (s : DecoderSt) (a b : List Nat) :
    stEquiv (processChunk s (a ++ b)) (processChunk (processChunk s a) b) := by
  by_cases hf : s.finished = true
  · rw [processChunk_finished s (a ++ b) hf, processChunk_finished s a hf,
      processChunk_finished s b hf]
    exact stEquiv_refl s
  · have hf' : s.finished = false := by simpa using hf
    have hdec := utf8Decode_append s.u8 a b
    have hsegs :
        splitNl (s.buffer ++ ((utf8Decode s.u8 a).2 ++ (utf8Decode (utf8Decode s.u8 a).1 b).2)) =
          dropLastSeg (splitNl (s.buffer ++ (utf8Decode s.u8 a).2)) ++
            splitNl (lastSeg (splitNl (s.buffer ++ (utf8Decode s.u8 a).2)) ++
              (utf8Decode (utf8Decode s.u8 a).1 b).2) := by
      rw [← List.append_assoc, splitNl_append (s.buffer ++ (utf8Decode s.u8 a).2),
        splitNl_append_no_nl _ _ (lastSeg_splitNl_no_nl _)]
    rw [processChunk_eq s (a ++ b) hf', processChunk_eq s a hf', hdec, hsegs]
    rw [dropLastSeg_append _ _ (splitNl_ne_nil _), lastSeg_append _ _ (splitNl_ne_nil _)]
    by_cases hd1 : (processLines (dropLastSeg (splitNl (s.buffer ++ (utf8Decode s.u8 a).2)))).2 = true
    · rw [processLines_append_stop _ _ hd1]
      rw [processChunk_finished _ b (by simp [hd1])]
      refine ⟨by simp, by simp [hd1], ?_⟩
      intro hcon
      simp [hd1] at hcon
    · have hd1' : (processLines (dropLastSeg (splitNl (s.buffer ++ (utf8Decode s.u8 a).2)))).2 = false := by
        simpa using hd1
      rw [processLines_append_no_stop _ _ hd1']
      rw [processChunk_eq _ b (by simp [hd1'])]
      simp only [List.append_assoc]
      exact stEquiv_refl _

/-- Observable equality is preserved by feeding the same chunk. -/
theorem stEquiv_processChunk {s t : DecoderSt} (c : List Nat) (h : stEquiv s t) :
    stEquiv (processChunk s c) (processChunk t c) := by
  by_cases hf : s.finished = true
  · have htf : t.finished = true := h.2.1 ▸ hf
    rw [processChunk_finished s c hf, processChunk_finished t c htf]
    exact h
  · have hf' : s.finished = false := by simpa using hf
    rw [h.2.2 hf']
    exact stEquiv_refl _

/-- Any way of cutting the byte stream into chunks is observably the same as
one big chunk. -/
theorem processChunks_join_equiv (css : List (List Nat)) :
    ∀ s : DecoderSt, (10 : Nat) ∉ s.buffer →
      stEquiv (processChunks s css) (processChunk s css.flatten) := by
  induction css with
  | nil =>
    intro s hb
    by_cases hf : s.finished = true
    · rw [processChunks_nil, processChunk_finished s _ hf]
      exact stEquiv_refl s
    · have hf' : s.finished = false := by simpa using hf
      rw [processChunks_nil, show ([] : List (List Nat)).flatten = [] from rfl,
        processChunk_nil_of_no_nl s hf' hb]
      exact stEquiv_refl s
  | cons c css ih =>
    intro s hb
    rw [processChunks_cons]
    have h1 : stEquiv (processChunks (processChunk s c) css)
        (processChunk (processChunk s c) css.flatten) :=
      ih (processChunk s c) (processChunk_buffer_no_nl s c hb)
    have h2 : stEquiv (processChunk s (c ++ css.flatten))
        (processChunk (processChunk s c) css.flatten) :=
      processChunk_append_equiv s c css.flatten
    exact stEquiv_trans h1 (stEquiv_symm h2)

/-! ## Lemmas about the transport loop -/

theorem runReads_chunks (css : List (List Nat)) :
    ∀ s : DecoderSt, runReads s (css.map ReadEv.chunk) = ((processChunks s css).output, false) := by
  induction css with
  | nil => intro s; rfl
  | cons c cs ih =>
    intro s
    by_cases hf : s.finished = true
    · rw [List.map_cons, show runReads s (ReadEv.chunk c :: cs.map ReadEv.chunk) =
          (if s.finished then (s.output, false)
           else runReads (processChunk s c) (cs.map ReadEv.chunk)) from rfl,
        if_pos hf, processChunks_finished s (c :: cs) hf]
    · rw [List.map_cons, show runReads s (ReadEv.chunk c :: cs.map ReadEv.chunk) =
          (if s.finished then (s.output, false)
           else runReads (processChunk s c) (cs.map ReadEv.chunk)) from rfl,
        if_neg hf, processChunks_cons, ih]

theorem runReads_fail (css : List (List Nat)) :
    ∀ s : DecoderSt, (processChunks s css).finished = false →
      runReads s (css.map ReadEv.chunk ++ [ReadEv.fail]) =
        ((processChunks s css).output, true) := by
  induction css with
  | nil =>
    intro s h
    rw [processChunks_nil] at h
    rw [processChunks_nil]
    simp [runReads, h]
  | cons c cs ih =>
    intro s h
    have hf : s.finished = false := by
      by_contra hf
      have hf' : s.finished = true := by simpa using hf
      rw [processChunks_finished s (c :: cs) hf'] at h
      rw [hf'] at h
      simp at h
    rw [processChunks_cons] at h ⊢
    rw [List.map_cons, List.cons_append,
      show runReads s (ReadEv.chunk c :: (cs.map ReadEv.chunk ++ [ReadEv.fail])) =
        (if s.finished then (s.output, false)
         else runReads (processChunk s c) (cs.map ReadEv.chunk ++ [ReadEv.fail])) from rfl,
      if_neg (by simp [hf]), ih (processChunk s c) h]

/-! ## The buffer invariant -/

theorem nlJoin_concat (ss : List (List Nat)) (l : List Nat) :
    nlJoin (ss ++ [l]) = (ss.map (fun x => x ++ [10])).flatten ++ l := by
  induction ss with
  | nil => rfl
  | cons x ss ih =>
    cases ss with
    | nil => simp [nlJoin]
    | cons y ys =>
      rw [show ((x :: y :: ys) ++ [l]) = x :: ((y :: ys) ++ [l]) from rfl,
        show nlJoin (x :: ((y :: ys) ++ [l])) = x ++ 10 :: nlJoin ((y :: ys) ++ [l]) from rfl,
        ih]
      simp

theorem flatten_map_nl_concat (ss : List (List Nat)) (h : ss ≠ []) :
    ∃ p0, (ss.map (fun x => x ++ [10])).flatten = p0 ++ [10] := by
  induction ss with
  | nil => exact absurd rfl h
  | cons x ss ih =>
    cases ss with
    | nil => exact ⟨x, by simp⟩
    | cons y ys =>
      obtain ⟨p0, hp⟩ := ih (List.cons_ne_nil y ys)
      refine ⟨x ++ [10] ++ p0, ?_⟩
      rw [List.map_cons, List.flatten_cons, hp]
      simp

/-- Any text splits as "complete lines ending in a newline" followed by its
last newline-free segment. -/
theorem text_decomp (u : List Nat) :
    ∃ p, u = p ++ lastSeg (splitNl u) ∧ (p = [] ∨ ∃ p0, p = p0 ++ [10]) := by
  have h1 := nlJoin_splitNl u
  have h2 := dropLastSeg_append_lastSeg (splitNl u) (splitNl_ne_nil u)
  rw [← h2, nlJoin_concat] at h1
  refine ⟨((dropLastSeg (splitNl u)).map (fun x => x ++ [10])).flatten, h1.symm, ?_⟩
  cases hd : dropLastSeg (splitNl u) with
  | nil => left; simp
  | cons y ys =>
    right
    exact flatten_map_nl_concat (y :: ys) (List.cons_ne_nil y ys)

/-- The buffer is a suffix of the decoded text, preceded by nothing or by a
newline. -/
def bufferInv (s : DecoderSt) : Prop :=
  ∃ p, s.decoded = p ++ s.buffer ∧ (p = [] ∨ ∃ p0, p = p0 ++ [10])

theorem bufferInv_step (s : DecoderSt) (c : List Nat) (h : bufferInv s) :
    bufferInv (processChunk s c) := by
  by_cases hf : s.finished = true
  · rw [processChunk_finished s c hf]; exact h
  · have hf' : s.finished = false := by simpa using hf
    obtain ⟨p, hp, hcond⟩ := h
    obtain ⟨p1, hp1, hcond1⟩ := text_decomp (s.buffer ++ (utf8Decode s.u8 c).2)
    rw [processChunk_eq s c hf']
    refine ⟨p ++ p1, ?_, ?_⟩
    · show s.decoded ++ (utf8Decode s.u8 c).2 = (p ++ p1) ++ _
      rw [hp, List.append_assoc, List.append_assoc, ← hp1]
    · rcases hcond1 with h1 | ⟨p0, h0⟩
      · subst h1
        simpa using hcond
      · right
        exact ⟨p ++ p0, by rw [h0, List.append_assoc]⟩

theorem processChunks_bufferInv (css : List (List Nat)) :
    ∀ s : DecoderSt, bufferInv s → bufferInv (processChunks s css) := by
  induction css with
  | nil => intro s h; exact h
  | cons c cs ih =>
    intro s h
    rw [processChunks_cons]
    exact ih _ (bufferInv_step s c h)

theorem processChunks_buffer_no_nl (css : List (List Nat)) :
    ∀ s : DecoderSt, (10 : Nat) ∉ s.buffer → (10 : Nat) ∉ (processChunks s css).buffer := by
  induction css with
  | nil => intro s h; exact h
  | cons c cs ih =>
    intro s h
    rw [processChunks_cons]
    exact ih _ (processChunk_buffer_no_nl s c h)

/-- Explicit form of the first live iteration from the fresh stream state. -/
theorem processChunk_startSt (bytes : List Nat) :
    processChunk startSt bytes =
      { u8 := (utf8Decode utf8Start bytes).1
        buffer := lastSeg (splitNl (utf8Text bytes))
        output := (processLines (dropLastSeg (splitNl (utf8Text bytes)))).1
        finished := (processLines (dropLastSeg (splitNl (utf8Text bytes)))).2
        decoded := utf8Text bytes } := by
  simp [processChunk, startSt, utf8Text]

theorem startSt_buffer_no_nl : (10 : Nat) ∉ startSt.buffer := by
  simp [startSt]

theorem runReads_finished (s : DecoderSt) (evs : List ReadEv) (hs : s.finished = true) :
    runReads s evs = (s.output, false) := by
  cases evs with
  | nil => rfl
  | cons ev rest => cases ev with
    | chunk c => simp [runReads, hs]
    | fail => simp [runReads, hs]

/-! ## The claims -/

/-- A candidate line with the `data: ` marker and the `[DONE]` payload makes
the generator return. -/
theorem lineStep_stop_of (l : List Nat) (h1 : dataMarker.isPrefixOf l = true)
    (h2 : payloadOf l = doneLit) : lineStep l = LineStep.stop := by
  rw [lineStep, if_pos h1, if_pos h2]

/-- Claim C1: for every byte stream whose records end with a `data: [DONE]`
line, the output sequence is exactly the deltas of the candidate lines
preceding that line, in order, and it ends with no error — for EVERY
partition `css` of the bytes into chunks, and in particular for
one-byte-at-a-time and whole-stream-at-once chunking, which therefore
agree. -/
theorem claim1_sentinel_chunking (css pre post : List (List Nat)) (dl : List Nat)
    (hsplit : dropLastSeg (splitNl (utf8Text css.flatten)) = pre ++ dl :: post)
    (hpre : ∀ l ∈ pre, lineStep l ≠ LineStep.stop)
    (hdlPfx : dataMarker.isPrefixOf dl = true)
    (hdlPay : payloadOf dl = doneLit) :
    (processChunks startSt css).output = pre.filterMap lineYieldOf ∧
    runReads startSt (css.map ReadEv.chunk) = (pre.filterMap lineYieldOf, false) := by
  have hdl : lineStep dl = LineStep.stop := lineStep_stop_of dl hdlPfx hdlPay
  have hequiv := processChunks_join_equiv css startSt startSt_buffer_no_nl
  have hout : (processChunks startSt css).output = pre.filterMap lineYieldOf := by
    rw [hequiv.1, processChunk_startSt, hsplit,
      processLines_until_stop pre post dl hpre hdl]
  exact ⟨hout, by rw [runReads_chunks css startSt, hout]⟩

def exDoneLine : List Nat := strLit "data: [DONE]"

def exDoneBytes : List Nat := exDoneLine ++ [10]

theorem claim1_witness :
    dropLastSeg (splitNl (utf8Text ((exDoneBytes.map (fun b => [b])).flatten))) =
      [] ++ exDoneLine :: [] ∧
    (∀ l ∈ ([] : List (List Nat)), lineStep l ≠ LineStep.stop) ∧
    dataMarker.isPrefixOf exDoneLine = true ∧
    payloadOf exDoneLine = doneLit ∧
    ((processChunks startSt (exDoneBytes.map (fun b => [b]))).output =
       ([] : List (List Nat)).filterMap lineYieldOf ∧
     runReads startSt ((exDoneBytes.map (fun b => [b])).map ReadEv.chunk) =
       (([] : List (List Nat)).filterMap lineYieldOf, false)) := by
  have h1 : dropLastSeg (splitNl (utf8Text ((exDoneBytes.map (fun b => [b])).flatten))) =
      [] ++ exDoneLine :: [] := by decide
  have h2 : ∀ l ∈ ([] : List (List Nat)), lineStep l ≠ LineStep.stop :=
    fun l h => absurd h (List.not_mem_nil l)
  have h3 : dataMarker.isPrefixOf exDoneLine = true := by decide
  have h4 : payloadOf exDoneLine = doneLit := by decide
  exact ⟨h1, h2, h3, h4, claim1_sentinel_chunking _ [] [] _ h1 h2 h3 h4⟩

/-- Claim C2: once a candidate line's payload is the `[DONE]` sentinel, the
sequence ends successfully at that point: the remaining candidate lines of
the same chunk are irrelevant, a finished stream state consumes no further
chunks, and no element is ever yielded (and no read made) afterwards. -/
theorem claim2_sentinel_final (pre post : List (List Nat)) (dl : List Nat)
    (hdlPfx : dataMarker.isPrefixOf dl = true) (hdlPay : payloadOf dl = doneLit)
    (s : DecoderSt) (hs : s.finished = true)
    (css : List (List Nat)) (evs : List ReadEv) :
    processLines (pre ++ dl :: post) = processLines (pre ++ [dl]) ∧
    (processLines (pre ++ dl :: post)).2 = true ∧
    processChunks s css = s ∧
    runReads s evs = (s.output, false) := by
  have hdl : lineStep dl = LineStep.stop := lineStep_stop_of dl hdlPfx hdlPay
  have hdls : processLines (dl :: post) = ([], true) := processLines_cons_stop dl post hdl
  have hdl1 : processLines [dl] = ([], true) := processLines_cons_stop dl [] hdl
  by_cases hp : (processLines pre).2 = true
  · exact ⟨(processLines_append_stop pre (dl :: post) hp).trans
        (processLines_append_stop pre [dl] hp).symm,
      by rw [processLines_append_stop pre (dl :: post) hp]; exact hp,
      processChunks_finished s css hs, runReads_finished s evs hs⟩
  · have hp' : (processLines pre).2 = false := by simpa using hp
    refine ⟨?_, ?_, processChunks_finished s css hs, runReads_finished s evs hs⟩
    · rw [processLines_append_no_stop pre (dl :: post) hp',
        processLines_append_no_stop pre [dl] hp', hdls, hdl1]
    · rw [processLines_append_no_stop pre (dl :: post) hp', hdls]

def exNoiseLine : List Nat := strLit "data: x"

theorem claim2_witness :
    dataMarker.isPrefixOf exDoneLine = true ∧
    payloadOf exDoneLine = doneLit ∧
    (processChunk startSt exDoneBytes).finished = true ∧
    (processLines ([] ++ exDoneLine :: [exNoiseLine]) = processLines ([] ++ [exDoneLine]) ∧
     (processLines ([] ++ exDoneLine :: [exNoiseLine])).2 = true ∧
     processChunks (processChunk startSt exDoneBytes) [[120]] = processChunk startSt exDoneBytes ∧
     runReads (processChunk startSt exDoneBytes) [ReadEv.fail] =
       ((processChunk startSt exDoneBytes).output, false)) := by
  have h1a : dataMarker.isPrefixOf exDoneLine = true := by decide
  have h1b : payloadOf exDoneLine = doneLit := by decide
  have h2 : (processChunk startSt exDoneBytes).finished = true := by decide
  exact ⟨h1a, h1b, h2, claim2_sentinel_final [] [exNoiseLine] exDoneLine h1a h1b
    (processChunk startSt exDoneBytes) h2 [[120]] [ReadEv.fail]⟩

/-- Claim C3: a candidate line whose payload parses as a JSON object yields
an element only when the `type` field is the output-text-delta discriminant
and the `delta` field is present, truthy and in particular not the empty
string; an object lacking the discriminant, or with an absent or empty-string
`delta`, is skipped silently. -/
theorem claim3_filtering (l : List Nat) (fs : List (List Nat × Json))
    (hpre : dataMarker.isPrefixOf l = true)
    (hjson : jsonParse (payloadOf l) = some (Json.obj fs)) :
    (∀ j, lineStep l = LineStep.yield j →
       jsonLookup fs typeKey = some (Json.str deltaTypeLit) ∧
       jsonLookup fs deltaKey = some j ∧ jsTruthy j = true ∧ j ≠ Json.str []) ∧
    ((jsonLookup fs typeKey ≠ some (Json.str deltaTypeLit) ∨
       jsonLookup fs deltaKey = none ∨
       jsonLookup fs deltaKey = some (Json.str [])) →
      lineStep l = LineStep.skip) := by
  have hnd : payloadOf l ≠ doneLit := by
    intro hcontra
    rw [hcontra] at hjson
    rw [show jsonParse doneLit = none from rfl] at hjson
    exact Option.noConfusion hjson
  have hstep : lineStep l =
      (match jsonLookup fs typeKey with
       | some (Json.str t) =>
         if t = deltaTypeLit then
           match jsonLookup fs deltaKey with
           | some d => if jsTruthy d then LineStep.yield d else LineStep.skip
           | none => LineStep.skip
         else LineStep.skip
       | _ => LineStep.skip) := by
    rw [lineStep, if_pos hpre, if_neg hnd, hjson]
    rfl
  constructor
  · intro j hy
    rw [hstep] at hy
    split at hy
    · rename_i t heq
      split at hy
      · rename_i ht
        split at hy
        · rename_i d heq2
          split at hy
          · rename_i htr
            injection hy with hdj
            subst hdj
            exact ⟨by rw [heq, ht], heq2, htr,
              fun hcon => by rw [hcon] at htr; simp [jsTruthy] at htr⟩
          · exact absurd hy (fun h => LineStep.noConfusion h)
        · exact absurd hy (fun h => LineStep.noConfusion h)
      · exact absurd hy (fun h => LineStep.noConfusion h)
    · exact absurd hy (fun h => LineStep.noConfusion h)
  · intro hdisj
    rw [hstep]
    split
    · rename_i t heq
      split
      · rename_i ht
        rcases hdisj with hd1 | hd2 | hd3
        · exact absurd (by rw [heq, ht]) hd1
        · rw [hd2]
        · rw [hd3]
          simp [jsTruthy]
      · rfl
    · rfl

def exDeltaLine : List Nat :=
  dataMarker ++ [123] ++ strLit "\"type\":\"response.output_text.delta\",\"delta\":\"Hi\"" ++ [125]

def exDeltaFields : List (List Nat × Json) :=
  [(typeKey, Json.str deltaTypeLit), (deltaKey, Json.str (strLit "Hi"))]

theorem claim3_witness :
    dataMarker.isPrefixOf exDeltaLine = true ∧
    jsonParse (payloadOf exDeltaLine) = some (Json.obj exDeltaFields) ∧
    ((∀ j, lineStep exDeltaLine = LineStep.yield j →
        jsonLookup exDeltaFields typeKey = some (Json.str deltaTypeLit) ∧
        jsonLookup exDeltaFields deltaKey = some j ∧ jsTruthy j = true ∧ j ≠ Json.str []) ∧
     ((jsonLookup exDeltaFields typeKey ≠ some (Json.str deltaTypeLit) ∨
        jsonLookup exDeltaFields deltaKey = none ∨
        jsonLookup exDeltaFields deltaKey = some (Json.str [])) →
       lineStep exDeltaLine = LineStep.skip)) := by
  have h1 : dataMarker.isPrefixOf exDeltaLine = true := by decide
  have h2 : jsonParse (payloadOf exDeltaLine) = some (Json.obj exDeltaFields) := rfl
  exact ⟨h1, h2, claim3_filtering exDeltaLine exDeltaFields h1 h2⟩

/-- A `data: ` line carrying an output-text-delta event whose `delta` field is
the JSON number 5: the claim predicts it is skipped, the code yields it. -/
def exNumDeltaLine : List Nat :=
  dataMarker ++ [123] ++ strLit "\"type\":\"response.output_text.delta\",\"delta\":5" ++ [125]

/-- Claim C4 counterexample: an event whose `delta` field is present but not
a string (the number 5) is NOT treated as an unrecognized shape — the line
yields the number itself, because `parsed.delta` is truthy. -/
theorem claim4_counterexample :
    lineStep exNumDeltaLine = LineStep.yield (Json.num 5) ∧
    lineStep exNumDeltaLine ≠ LineStep.skip := by
  have h : lineStep exNumDeltaLine = LineStep.yield (Json.num 5) := by
    with_unfolding_all rfl
  exact ⟨h, by rw [h]; exact fun hc => LineStep.noConfusion hc⟩

/-- Claim C4 as amended: for an event with the output-text-delta discriminant
and a `delta` field of any JSON type, the line yields the field's value
exactly when that value is JavaScript-truthy (so the nonzero number 5 is
yielded as-is, while 0, false, null and the empty string are skipped). -/
theorem claim4_amended (l : List Nat) (fs : List (List Nat × Json)) (d : Json)
    (hpre : dataMarker.isPrefixOf l = true)
    (hjson : jsonParse (payloadOf l) = some (Json.obj fs))
    (htype : jsonLookup fs typeKey = some (Json.str deltaTypeLit))
    (hdelta : jsonLookup fs deltaKey = some d) :
    lineStep l = (if jsTruthy d then LineStep.yield d else LineStep.skip) := by
  have hnd : payloadOf l ≠ doneLit := by
    intro hcontra
    rw [hcontra] at hjson
    rw [show jsonParse doneLit = none from rfl] at hjson
    exact Option.noConfusion hjson
  rw [lineStep, if_pos hpre, if_neg hnd, hjson]
  show (match jsGetField (Json.obj fs) typeKey with
        | some (Json.str t) =>
          if t = deltaTypeLit then
            match jsGetField (Json.obj fs) deltaKey with
            | some d => if jsTruthy d then LineStep.yield d else LineStep.skip
            | none => LineStep.skip
          else LineStep.skip
        | _ => LineStep.skip) = _
  rw [show jsGetField (Json.obj fs) typeKey = jsonLookup fs typeKey from rfl, htype,
    show jsGetField (Json.obj fs) deltaKey = jsonLookup fs deltaKey from rfl, hdelta]
  simp

theorem claim4_amended_witness :
    dataMarker.isPrefixOf exNumDeltaLine = true ∧
    jsonParse (payloadOf exNumDeltaLine) =
      some (Json.obj [(typeKey, Json.str deltaTypeLit), (deltaKey, Json.num 5)]) ∧
    jsonLookup [(typeKey, Json.str deltaTypeLit), (deltaKey, Json.num 5)] typeKey =
      some (Json.str deltaTypeLit) ∧
    jsonLookup [(typeKey, Json.str deltaTypeLit), (deltaKey, Json.num 5)] deltaKey =
      some (Json.num 5) ∧
    lineStep exNumDeltaLine =
      (if jsTruthy (Json.num 5) then LineStep.yield (Json.num 5) else LineStep.skip) := by
  have h1 : dataMarker.isPrefixOf exNumDeltaLine = true := by decide
  have h2 : jsonParse (payloadOf exNumDeltaLine) =
      some (Json.obj [(typeKey, Json.str deltaTypeLit), (deltaKey, Json.num 5)]) := by
    with_unfolding_all rfl
  have h3 : jsonLookup [(typeKey, Json.str deltaTypeLit), (deltaKey, Json.num 5)] typeKey =
      some (Json.str deltaTypeLit) := by rfl
  have h4 : jsonLookup [(typeKey, Json.str deltaTypeLit), (deltaKey, Json.num 5)] deltaKey =
      some (Json.num 5) := by rfl
  exact ⟨h1, h2, h3, h4, claim4_amended exNumDeltaLine _ (Json.num 5) h1 h2 h3 h4⟩

/-- Claim C5: a `data: ` line whose payload is not the sentinel and fails to
parse as JSON is discarded silently: it yields nothing, does not end the
stream, and the lines after it are processed exactly as if it were absent. -/
theorem claim5_malformed_skipped (l : List Nat) (rest : List (List Nat))
    (hpre : dataMarker.isPrefixOf l = true)
    (hnd : payloadOf l ≠ doneLit)
    (hparse : jsonParse (payloadOf l) = none) :
    lineStep l = LineStep.skip ∧ processLines (l :: rest) = processLines rest := by
  have hskip : lineStep l = LineStep.skip := by
    rw [lineStep, if_pos hpre, if_neg hnd, hparse]
  exact ⟨hskip, processLines_cons_skip l rest hskip⟩

def exBadLine : List Nat := strLit "data: notjson"

theorem claim5_witness :
    dataMarker.isPrefixOf exBadLine = true ∧
    payloadOf exBadLine ≠ doneLit ∧
    jsonParse (payloadOf exBadLine) = none ∧
    (lineStep exBadLine = LineStep.skip ∧
     processLines [exBadLine, exDeltaLine] = processLines [exDeltaLine]) := by
  have h1 : dataMarker.isPrefixOf exBadLine = true := by decide
  have h2 : payloadOf exBadLine ≠ doneLit := by decide
  have h3 : jsonParse (payloadOf exBadLine) = none := rfl
  exact ⟨h1, h2, h3, claim5_malformed_skipped exBadLine [exDeltaLine] h1 h2 h3⟩

/-- Claim C6: between chunk arrivals the buffer holds exactly the longest
suffix of the decoded text that contains no newline: it is newline-free, it
is a suffix of everything decoded so far, and what precedes it ends in a
newline (or is empty), hence was consumed as candidate lines. -/
theorem claim6_buffer_invariant (css : List (List Nat)) :
    (10 : Nat) ∉ (processChunks startSt css).buffer ∧
    ∃ p, (processChunks startSt css).decoded = p ++ (processChunks startSt css).buffer ∧
      (p = [] ∨ ∃ p0, p = p0 ++ [10]) := by
  exact ⟨processChunks_buffer_no_nl css startSt startSt_buffer_no_nl,
    processChunks_bufferInv css startSt ⟨[], by simp [startSt], Or.inl rfl⟩⟩

/-- Claim C7: a stream whose transport signals end-of-stream without a
`[DONE]` sentinel yields all deltas decoded from the received bytes — the
deltas of every complete candidate line, in order — and then terminates with
no error, for every chunking of the bytes. -/
theorem claim7_eos_graceful (css : List (List Nat))
    (hnostop : ∀ l ∈ dropLastSeg (splitNl (utf8Text css.flatten)),
      lineStep l ≠ LineStep.stop) :
    runReads startSt (css.map ReadEv.chunk) =
      ((dropLastSeg (splitNl (utf8Text css.flatten))).filterMap lineYieldOf, false) := by
  rw [runReads_chunks css startSt]
  have hequiv := processChunks_join_equiv css startSt startSt_buffer_no_nl
  rw [hequiv.1, processChunk_startSt, processLines_no_stop _ hnostop]

def exDeltaBytes : List Nat := exDeltaLine ++ [10]

theorem claim7_witness :
    (∀ l ∈ dropLastSeg (splitNl (utf8Text ([exDeltaBytes]).flatten)),
      lineStep l ≠ LineStep.stop) ∧
    runReads startSt ([exDeltaBytes].map ReadEv.chunk) =
      ((dropLastSeg (splitNl (utf8Text ([exDeltaBytes]).flatten))).filterMap lineYieldOf,
        false) := by
  have h : ∀ l ∈ dropLastSeg (splitNl (utf8Text ([exDeltaBytes]).flatten)),
      lineStep l ≠ LineStep.stop := by
    intro l hl
    rw [show dropLastSeg (splitNl (utf8Text ([exDeltaBytes]).flatten)) = [exDeltaLine]
      from rfl] at hl
    rcases List.mem_singleton.mp hl with rfl
    rw [show lineStep exDeltaLine = LineStep.yield (Json.str (strLit "Hi")) from rfl]
    exact fun hc => LineStep.noConfusion hc
  exact ⟨h, claim7_eos_graceful [exDeltaBytes] h⟩

/-- Claim C8: if the transport read of the next chunk fails after some chunks
were decoded (and the sentinel has not been seen), the sequence consists of
exactly the deltas already yielded, unchanged, followed by the error at the
point of the failed read. -/
theorem claim8_midstream_failure (css : List (List Nat))
    (h : (processChunks startSt css).finished = false) :
    runReads startSt (css.map ReadEv.chunk ++ [ReadEv.fail]) =
      ((processChunks startSt css).output, true) :=
  runReads_fail css startSt h

theorem claim8_witness :
    (processChunks startSt [exDeltaBytes]).finished = false ∧
    runReads startSt ([exDeltaBytes].map ReadEv.chunk ++ [ReadEv.fail]) =
      ((processChunks startSt [exDeltaBytes]).output, true) := by
  have h : (processChunks startSt [exDeltaBytes]).finished = false := by decide
  exact ⟨h, claim8_midstream_failure [exDeltaBytes] h⟩

/-- Claim C9: the credential is the caller's key when that is a nonempty
string, falling back to the process-wide default key; when both are absent or
empty the missing-key error is raised by the call itself, before any request,
independent of anything the transport would deliver — never from inside the
output sequence. -/
theorem claim9_key_resolution :
    (∀ (k : List Nat) (ek : Option (List Nat)), k ≠ [] →
       streamOpenAIChat_auth (some k) ek = Except.ok k) ∧
    (∀ (k : List Nat), k ≠ [] →
       streamOpenAIChat_auth none (some k) = Except.ok k ∧
       streamOpenAIChat_auth (some []) (some k) = Except.ok k) ∧
    (∀ uk ek : Option (List Nat), (uk = none ∨ uk = some []) →
       (ek = none ∨ ek = some []) →
       ∀ evs : List ReadEv, streamOpenAIChat_model uk ek evs = Except.error ()) := by
  refine ⟨?_, ?_, ?_⟩
  · intro k ek hk
    simp [streamOpenAIChat_auth, jsOrStr, hk]
  · intro k hk
    constructor <;> simp [streamOpenAIChat_auth, jsOrStr, hk]
  · intro uk ek huk hek evs
    rcases huk with rfl | rfl <;> rcases hek with rfl | rfl <;>
      simp [streamOpenAIChat_model, streamOpenAIChat_auth, jsOrStr]

theorem claim9_witness :
    (strLit "user-key" ≠ [] ∧
     streamOpenAIChat_auth (some (strLit "user-key")) (some (strLit "env-key")) =
       Except.ok (strLit "user-key")) ∧
    (strLit "env-key" ≠ [] ∧
     streamOpenAIChat_auth none (some (strLit "env-key")) = Except.ok (strLit "env-key")) ∧
    streamOpenAIChat_model none none [ReadEv.chunk exDeltaBytes] = Except.error () := by
  have hu : strLit "user-key" ≠ [] := by decide
  have he : strLit "env-key" ≠ [] := by decide
  exact ⟨⟨hu, claim9_key_resolution.1 (strLit "user-key") (some (strLit "env-key")) hu⟩,
    ⟨he, (claim9_key_resolution.2.1 (strLit "env-key") he).1⟩,
    claim9_key_resolution.2.2 none none (Or.inl rfl) (Or.inl rfl) [ReadEv.chunk exDeltaBytes]⟩

/-- The last segment of text that ends with a newline is empty. -/
theorem lastSeg_splitNl_concat_nl (t0 : List Nat) :
    lastSeg (splitNl (t0 ++ [10])) = [] := by
  rw [splitNl_append t0 [10],
    show splitNl [10] = [[], []] from rfl,
    lastSeg_append _ _ (by
      cases h : glueHead (lastSeg (splitNl t0)) [[], []] with
      | nil => exact absurd h (by simp [glueHead])
      | cons a as => exact List.cons_ne_nil a as)]
  simp [glueHead, lastSeg]

/-- Claim C10: a stream whose decoded text ends with a complete `data: `
record not followed by a newline never parses that record and never yields
its delta: the record stays in the buffer, and at end-of-stream the sequence
finishes with only the deltas of the newline-terminated lines before it. -/
theorem claim10_trailing_record_dropped (css : List (List Nat)) (t l : List Nat)
    (hdecomp : utf8Text css.flatten = t ++ l)
    (ht : t = [] ∨ ∃ t0, t = t0 ++ [10])
    (hl10 : (10 : Nat) ∉ l)
    (hrec : dataMarker.isPrefixOf l = true)
    (hnostop : ∀ c ∈ dropLastSeg (splitNl t), lineStep c ≠ LineStep.stop) :
    (processChunks startSt css).buffer = l ∧
    runReads startSt (css.map ReadEv.chunk) =
      ((dropLastSeg (splitNl t)).filterMap lineYieldOf, false) := by
  have hlastT : lastSeg (splitNl t) = [] := by
    rcases ht with rfl | ⟨t0, rfl⟩
    · rfl
    · exact lastSeg_splitNl_concat_nl t0
  have hsplitTL : splitNl (t ++ l) = dropLastSeg (splitNl t) ++ [l] := by
    rw [splitNl_append t l, hlastT, splitNl_no_nl l hl10]
    simp [glueHead]
  have hone : processChunk startSt css.flatten =
      { u8 := (utf8Decode utf8Start css.flatten).1
        buffer := l
        output := (dropLastSeg (splitNl t)).filterMap lineYieldOf
        finished := false
        decoded := utf8Text css.flatten } := by
    rw [processChunk_startSt, hdecomp, hsplitTL,
      lastSeg_append _ [l] (List.cons_ne_nil l []),
      dropLastSeg_append _ [l] (List.cons_ne_nil l []),
      show lastSeg [l] = l from rfl,
      show dropLastSeg [l] = [] from rfl,
      List.append_nil, processLines_no_stop _ hnostop, ← hdecomp]
  have hequiv := processChunks_join_equiv css startSt startSt_buffer_no_nl
  have hfin : (processChunks startSt css).finished = false := by
    rw [hequiv.2.1, hone]
  have heq : processChunks startSt css = processChunk startSt css.flatten :=
    hequiv.2.2 hfin
  refine ⟨by rw [heq, hone], ?_⟩
  rw [runReads_chunks css startSt, heq, hone]

theorem claim10_witness :
    utf8Text ([exDeltaLine]).flatten = [] ++ exDeltaLine ∧
    ((10 : Nat) ∉ exDeltaLine) ∧
    dataMarker.isPrefixOf exDeltaLine = true ∧
    ((processChunks startSt [exDeltaLine]).buffer = exDeltaLine ∧
     runReads startSt ([exDeltaLine].map ReadEv.chunk) =
       ((dropLastSeg (splitNl ([] : List Nat))).filterMap lineYieldOf, false)) := by
  have h1 : utf8Text ([exDeltaLine]).flatten = [] ++ exDeltaLine := by decide
  have h2 : (10 : Nat) ∉ exDeltaLine := by decide
  have h3 : dataMarker.isPrefixOf exDeltaLine = true := by decide
  have h4 : ∀ c ∈ dropLastSeg (splitNl ([] : List Nat)), lineStep c ≠ LineStep.stop :=
    fun c hc => absurd hc (by simp [splitNl, dropLastSeg])
  exact ⟨h1, h2, h3,
    claim10_trailing_record_dropped [exDeltaLine] [] exDeltaLine h1 (Or.inl rfl) h2 h3 h4⟩

end Ester
